import Mathlib

/-!
# Verification of `raffle_selection.py`

A shallow embedding of the token-holder raffle script.  Python dicts are
modelled as insertion-ordered association lists (`List (String × _)`),
Python floats as rationals (`ℚ`), the pseudo-random source `random.random()`
as a function `Nat → ℚ` giving the value consumed by the i-th draw, and
Python exceptions as `Except PyErr` values.

Embedded functions (names follow the source):
* `calculate_weights`   — `calculate_weights` (lines 43–50);
* `weighted_random_selection` — `weighted_random_selection` (lines 52–60),
  with `pyChoices` embedding CPython's `random.choices(population, weights=…, k=…)`
  (cumulative sums + `bisect.bisect(cum_weights, random()*total, 0, hi)`);
* `processRow` / `processRows` — the row-accumulation loop shared verbatim by
  `load_token_balances_csv` (22–27), `load_token_balances_excel` (35–40) and
  `get_snapshot_balances_from_dune` (86–91), including the `defaultdict`
  side effect of `balances[address]`;
* `load_token_balances` — the extension dispatch (lines 8–15);
* `main` — lines 95–113, parameterised over the I/O-backed balance sources.
-/

set_option autoImplicit false

namespace Raffle

/-- Python exception values that the script can raise, as distinguishable
error codes. -/
inductive PyErr where
  /-- `ValueError("Either a file path or Dune API key with block number must be provided.")` -/
  | missingInputValueError
  /-- `ValueError("Unsupported file format. ...")` raised by `load_token_balances`. -/
  | unsupportedFormatValueError
  /-- `ZeroDivisionError` from `weights[addr] / total_weight` with `total_weight == 0`. -/
  | zeroDivisionError
  /-- `IndexError` from `cum_weights[-1]` inside `random.choices` on an empty population. -/
  | indexError
  /-- `ValueError` raised inside `random.choices`. -/
  | valueError
  /-- any other exception, identified by its message -/
  | other (msg : String)
deriving DecidableEq, Repr

/-- A per-address token→amount dict. -/
abbrev Holdings := List (String × ℚ)

/-- The address→holdings dict returned by the balance loaders. -/
abbrev Balances := List (String × Holdings)

/-- `sum(d.values())` for a Python dict modelled as an association list. -/
def sumVals (l : List (String × ℚ)) : ℚ :=
  (l.map Prod.snd).sum

/-- `d[k]` read access on a dict (no default): the value of the first entry
whose key is `k`. -/
def pyLookup {α : Type} : List (String × α) → String → Option α
  | [], _ => none
  | p :: ps, k => if p.1 == k then some p.2 else pyLookup ps k

/-- `k in d` membership test on a dict. -/
def pyContains {α : Type} : List (String × α) → String → Bool
  | [], _ => false
  | p :: ps, k => p.1 == k || pyContains ps k

/-- `calculate_weights` (source lines 43–50): `weights[address] = total_balance`
for each address whose `sum(holdings.values())` is `> 0`. -/
def calculate_weights (balances : Balances) : List (String × ℚ) :=
  balances.filterMap (fun p =>
    if 0 < sumVals p.2 then some (p.1, sumVals p.2) else none)

/-- `itertools.accumulate`: running partial sums starting from `acc`
(the `cum_weights` list built inside `random.choices`). -/
def accumulate (acc : ℚ) : List ℚ → List ℚ
  | [] => []
  | x :: xs => (acc + x) :: accumulate (acc + x) xs

/-- The `while lo < hi:` loop of `bisect.bisect_right`, with a structural
fuel argument: each iteration strictly shrinks the window `hi - lo`, so any
fuel `≥ hi - lo` runs the loop to completion. -/
def bisectGo (a : List ℚ) (x : ℚ) : Nat → Nat → Nat → Nat
  | 0, lo, _ => lo
  | fuel + 1, lo, hi =>
    if lo < hi then
      let mid := (lo + hi) / 2
      if x < a.getD mid 0 then bisectGo a x fuel lo mid
      else bisectGo a x fuel (mid + 1) hi
    else lo

/-- `bisect.bisect_right(a, x, lo, hi)` from CPython's `bisect` module
(the pure binary-search loop; out-of-range reads use `getD _ 0`, which the
in-range call sites never hit). -/
def bisectRight (a : List ℚ) (x : ℚ) (lo hi : Nat) : Nat :=
  bisectGo a x (hi - lo) lo hi

/-- CPython's `random.choices(population, weights=ws, k=k)`:
build `cum_weights`, check its length, read `cum_weights[-1]` (an
`IndexError` on an empty population), reject a non-positive total with a
`ValueError`, then draw `k` indices with
`bisect(cum_weights, random() * total, 0, len(population) - 1)`,
the i-th call of `random()` giving `rand i`. -/
def pyChoices (population : List String) (ws : List ℚ) (k : Nat)
    (rand : Nat → ℚ) : Except PyErr (List String) :=
  let cum := accumulate 0 ws
  if cum.length ≠ population.length then .error .valueError
  else
    match cum.getLast? with
    | none => .error .indexError
    | some total =>
      if total ≤ 0 then .error .valueError
      else
        let hi := population.length - 1
        .ok ((List.range k).map
          (fun i => population.getD (bisectRight cum (rand i * total) 0 hi) ""))

/-- `weighted_random_selection` (source lines 52–60): sum the weights, build
the normalised probability list (a `ZeroDivisionError` if the dict is
non-empty and the total is zero — Python float division raises), then call
`random.choices` with `k = num_winners`. -/
def weighted_random_selection (weights : List (String × ℚ)) (num_winners : Nat)
    (rand : Nat → ℚ) : Except PyErr (List String) :=
  let total_weight := sumVals weights
  let weighted_addresses := weights.map Prod.fst
  if total_weight = 0 ∧ weights ≠ [] then .error .zeroDivisionError
  else
    let probabilities := weights.map (fun p => p.2 / total_weight)
    pyChoices weighted_addresses probabilities num_winners rand

/-- The `defaultdict` default factory `lambda: {'AR': 0, 'AISTR': 0, 'ALCH': 0}`. -/
def defaultHoldings : Holdings := [("AR", 0), ("AISTR", 0), ("ALCH", 0)]

/-- `holdings[token] += balance`: replace the value stored at `token`. -/
def addToken (hs : Holdings) (token : String) (amt : ℚ) : Holdings :=
  hs.map (fun p => if p.1 == token then (p.1, p.2 + amt) else p)

/-- `balances[address] = v` on an address that may already be present:
replace its value in place (insertion order preserved). -/
def pyUpdate (b : Balances) (k : String) (v : Holdings) : Balances :=
  b.map (fun p => if p.1 == k then (p.1, v) else p)

/-- The guarded accumulation `if token in balances[address]:
balances[address][token] += balance` once `address` is known to be present
in `b1`. -/
def processRowUpd (b1 : Balances) (address token : String) (balance : ℚ) : Balances :=
  let hs := (pyLookup b1 address).getD defaultHoldings
  if pyContains hs token then pyUpdate b1 address (addToken hs token balance) else b1

/-- One iteration of the loader loop (source lines 23–27, identical at 36–40
and 87–91) on a parsed row `(address, token, balance)`.  The subscript
`balances[address]` on a `defaultdict` first inserts the default holdings
when the address is absent; then the guarded accumulation runs. -/
def processRow (b : Balances) (r : String × String × ℚ) : Balances :=
  let b1 := if pyContains b r.1 then b else b ++ [(r.1, defaultHoldings)]
  processRowUpd b1 r.1 r.2.1 r.2.2

/-- The whole loader loop over the parsed rows, starting from the empty
`defaultdict`.  `load_token_balances_csv`, `load_token_balances_excel` and
`get_snapshot_balances_from_dune` are each `processRows` applied to the rows
parsed from their respective input. -/
def processRows (rows : List (String × String × ℚ)) : Balances :=
  rows.foldl processRow []

/-- The amount the returned mapping reports for `(addr, t)`
(`0` when either key is absent, matching the all-zero default). -/
def amountOf (b : Balances) (addr t : String) : ℚ :=
  (pyLookup ((pyLookup b addr).getD defaultHoldings) t).getD 0

/-- The total amount the input rows carry for `(addr, t)`. -/
def rowSum (rows : List (String × String × ℚ)) (addr t : String) : ℚ :=
  ((rows.filter (fun r => r.1 == addr && r.2.1 == t)).map (fun r => r.2.2)).sum

/-- Python truthiness of an optional string argument (`None` and `""` are
falsy). -/
def pyTruthyStr : Option String → Bool
  | none => false
  | some s => !(s == "")

/-- Python truthiness of an optional integer argument (`None` and `0` are
falsy). -/
def pyTruthyInt : Option Int → Bool
  | none => false
  | some n => !(n == 0)

/-- `load_token_balances` (source lines 8–15): dispatch on the file
extension; the CSV/Excel readers are I/O and enter as parameters giving the
balances parsed from a path. -/
def load_token_balances (csvLoad excelLoad : String → Balances)
    (file_path : String) : Except PyErr Balances :=
  if file_path.endsWith ".csv" then .ok (csvLoad file_path)
  else if file_path.endsWith ".xlsx" || file_path.endsWith ".xls" then
    .ok (excelLoad file_path)
  else .error .unsupportedFormatValueError

/-- `main` (source lines 95–113), parameterised over the I/O-backed balance
sources: `duneFetch block_number api_key` is the result of
`get_snapshot_balances_from_dune` (an `Except`, since the HTTP call can
raise), and `loadFile path` the result of `load_token_balances` on a path
(the composed dispatch-plus-reader, since file parsing is I/O).  Step 1
picks the source with Python truthiness tests (`if api_key and
block_number: … elif file_path: … else: raise ValueError`); steps 2–4
compute weights, draw winners, and pair each winner with its holdings
(`balances[winner]`). -/
def main (loadFile : String → Except PyErr Balances)
    (duneFetch : Int → String → Except PyErr Balances)
    (file_path : Option String) (num_winners : Nat)
    (block_number : Option Int) (api_key : Option String)
    (rand : Nat → ℚ) : Except PyErr (List (String × Holdings)) :=
  let step1 : Except PyErr Balances :=
    if pyTruthyStr api_key && pyTruthyInt block_number then
      duneFetch (block_number.getD 0) (api_key.getD "")
    else if pyTruthyStr file_path then
      loadFile (file_path.getD "")
    else .error .missingInputValueError
  match step1 with
  | .error e => .error e
  | .ok balances =>
    let weights := calculate_weights balances
    match weighted_random_selection weights num_winners rand with
    | .error e => .error e
    | .ok winners =>
      .ok (winners.map (fun w => (w, (pyLookup balances w).getD defaultHoldings)))

/-- `True` exactly when the call raised an exception. -/
def raisesError {α : Type} : Except PyErr α → Bool
  | .error _ => true
  | .ok _ => false

/-! Concrete inputs used by the closed witness and counterexample theorems. -/

/-- A random source whose every draw is `0` (a legal value of `random()`). -/
def rand0 : Nat → ℚ := fun _ => 0

/-- A file loader whose parse yields one address holding 1 AR. -/
def loadFileOk : String → Except PyErr Balances :=
  fun _ => .ok [("0xA", [("AR", 1), ("AISTR", 0), ("ALCH", 0)])]

/-- A file loader whose parse yields no rows. -/
def loadFileEmpty : String → Except PyErr Balances := fun _ => .ok []

/-- A file loader that fails with a recognisable parse error. -/
def loadFileA : String → Except PyErr Balances := fun _ => .error (.other "fileA")

/-- A second file loader failing with a different recognisable error. -/
def loadFileB : String → Except PyErr Balances := fun _ => .error (.other "fileB")

/-- A Dune fetcher whose query yields one address holding 2 AR. -/
def duneFetchZ : Int → String → Except PyErr Balances :=
  fun _ _ => .ok [("0xD", [("AR", 2), ("AISTR", 0), ("ALCH", 0)])]

/-! ## Helper lemmas about the sampler kernel -/

/-- The bisection loop stays inside the search window `[lo, hi]`. -/
theorem bisectGo_le (a : List ℚ) (x : ℚ) : ∀ (fuel lo hi : Nat), lo ≤ hi →
    lo ≤ bisectGo a x fuel lo hi ∧ bisectGo a x fuel lo hi ≤ hi := by
  intro fuel
  induction fuel with
  | zero => intro lo hi h; exact ⟨le_refl lo, h⟩
  | succ fuel ih =>
    intro lo hi h
    by_cases hlt : lo < hi
    · rw [bisectGo, if_pos hlt]
      by_cases hx : x < a.getD ((lo + hi) / 2) 0
      · rw [if_pos hx]
        have := ih lo ((lo + hi) / 2) (by omega)
        exact ⟨this.1, by omega⟩
      · rw [if_neg hx]
        have := ih ((lo + hi) / 2 + 1) hi (by omega)
        exact ⟨by omega, this.2⟩
    · rw [bisectGo, if_neg hlt]
      exact ⟨le_refl lo, h⟩

/-- `bisect_right` stays inside the search window `[lo, hi]`. -/
theorem bisectRight_le (a : List ℚ) (x : ℚ) (lo hi : Nat) (h : lo ≤ hi) :
    lo ≤ bisectRight a x lo hi ∧ bisectRight a x lo hi ≤ hi :=
  bisectGo_le a x (hi - lo) lo hi h

/-- With enough fuel the bisection loop lands exactly at `j` when everything
left of `j` is `≤ x` and everything from `j` up to (but excluding) `hi` is
`> x`. -/
theorem bisectGo_eq (a : List ℚ) (x : ℚ) (j : Nat) : ∀ (fuel lo hi : Nat),
    hi - lo ≤ fuel → lo ≤ j → j ≤ hi →
    (∀ i, lo ≤ i → i < j → a.getD i 0 ≤ x) →
    (∀ i, j ≤ i → i < hi → x < a.getD i 0) →
    bisectGo a x fuel lo hi = j := by
  intro fuel
  induction fuel with
  | zero =>
    intro lo hi hfuel hlo hhi _ _
    rw [bisectGo]; omega
  | succ fuel ih =>
    intro lo hi hfuel hlo hhi hle hgt
    by_cases hlt : lo < hi
    · rw [bisectGo, if_pos hlt]
      by_cases hx : x < a.getD ((lo + hi) / 2) 0
      · rw [if_pos hx]
        have hjm : j ≤ (lo + hi) / 2 := by
          by_contra hc
          exact absurd (hle ((lo + hi) / 2) (by omega) (by omega)) (not_le.mpr hx)
        exact ih lo ((lo + hi) / 2) (by omega) hlo hjm hle
          (fun i h1 h2 => hgt i h1 (by omega))
      · rw [if_neg hx]
        have hmj : (lo + hi) / 2 < j := by
          by_contra hc
          exact hx (hgt ((lo + hi) / 2) (by omega) (by omega))
        exact ih ((lo + hi) / 2 + 1) hi (by omega) (by omega) hhi
          (fun i h1 h2 => hle i (by omega) h2) hgt
    · rw [bisectGo, if_neg hlt]
      omega

/-- `bisect_right` lands exactly at `j` when everything left of `j` is `≤ x`
and everything from `j` up to (but excluding) `hi` is `> x`. -/
theorem bisectRight_eq (a : List ℚ) (x : ℚ) (j : Nat) : ∀ lo hi,
    lo ≤ j → j ≤ hi →
    (∀ i, lo ≤ i → i < j → a.getD i 0 ≤ x) →
    (∀ i, j ≤ i → i < hi → x < a.getD i 0) →
    bisectRight a x lo hi = j := by
  intro lo hi hlo hhi hle hgt
  exact bisectGo_eq a x j (hi - lo) lo hi (le_refl _) hlo hhi hle hgt

/-- `accumulate` preserves list length. -/
theorem accumulate_length (acc : ℚ) (l : List ℚ) :
    (accumulate acc l).length = l.length := by
  induction l generalizing acc with
  | nil => rfl
  | cons y ys ih => simp [accumulate, ih]

/-- Entry `m` of the running sums is `acc` plus the sum of the first `m + 1`
inputs. -/
theorem accumulate_getD (acc : ℚ) (l : List ℚ) (m : Nat) (hm : m < l.length) :
    (accumulate acc l).getD m 0 = acc + (l.take (m + 1)).sum := by
  induction l generalizing acc m with
  | nil => simp at hm
  | cons y ys ih =>
    cases m with
    | zero => simp [accumulate]
    | succ m =>
      have hm' : m < ys.length := by simpa using hm
      simp only [accumulate, List.getD_cons_succ, List.take_succ_cons, List.sum_cons]
      rw [ih (acc + y) m hm', add_assoc]

/-- `getLast?` skips the head of a list with a non-empty tail. -/
theorem getLast?_cons_of_ne_nil (a : ℚ) (l : List ℚ) (h : l ≠ []) :
    (a :: l).getLast? = l.getLast? := by
  cases l with
  | nil => exact absurd rfl h
  | cons b t => exact List.getLast?_cons_cons

/-- The last running sum is `acc` plus the total. -/
theorem accumulate_getLast? (acc : ℚ) (l : List ℚ) (h : l ≠ []) :
    (accumulate acc l).getLast? = some (acc + l.sum) := by
  induction l generalizing acc with
  | nil => exact absurd rfl h
  | cons y ys ih =>
    cases ys with
    | nil => simp [accumulate]
    | cons z zs =>
      have htail : accumulate (acc + y) (z :: zs) ≠ [] := by
        intro hc
        have := accumulate_length (acc + y) (z :: zs)
        rw [hc] at this
        simp at this
      rw [show accumulate acc (y :: z :: zs)
            = (acc + y) :: accumulate (acc + y) (z :: zs) from rfl]
      rw [getLast?_cons_of_ne_nil _ _ htail, ih (acc + y) (by simp)]
      simp [add_assoc]

/-- Summing after dividing each element by `T` divides the total by `T`. -/
theorem sum_map_div (l : List ℚ) (T : ℚ) :
    (l.map (fun y => y / T)).sum = l.sum / T := by
  induction l with
  | nil => simp
  | cons y ys ih => simp [add_div, ih]

/-- On a non-empty weight dict with non-zero total, `weighted_random_selection`
succeeds and returns the `k` bisection draws over the cumulative
probabilities (whose own total is exactly `1`). -/
theorem wrs_ok (l : List (String × ℚ)) (k : Nat) (rand : Nat → ℚ)
    (hne : l ≠ []) (hT : sumVals l ≠ 0) :
    weighted_random_selection l k rand =
      .ok ((List.range k).map (fun i =>
        (l.map Prod.fst).getD
          (bisectRight (accumulate 0 (l.map (fun p => p.2 / sumVals l)))
            (rand i) 0 (l.length - 1)) "")) := by
  simp only [weighted_random_selection, pyChoices]
  rw [if_neg (by tauto)]
  have hlen : (accumulate 0 (l.map (fun p => p.2 / sumVals l))).length
      = (l.map Prod.fst).length := by
    rw [accumulate_length]; simp
  rw [if_neg (by simp [hlen])]
  have hpne : l.map (fun p => p.2 / sumVals l) ≠ [] := by
    simpa using hne
  have hsum : (l.map (fun p => p.2 / sumVals l)).sum = 1 := by
    have hmm : (l.map fun p => p.2 / sumVals l)
        = (l.map Prod.snd).map (fun y => y / sumVals l) := by
      simp [List.map_map, Function.comp]
    rw [hmm, sum_map_div]
    exact div_self hT
  have hlast : (accumulate 0 (l.map (fun p => p.2 / sumVals l))).getLast? = some 1 := by
    rw [accumulate_getLast? _ _ hpne, hsum, zero_add]
  rw [hlast]
  norm_num [mul_one]

/-- Whenever `weighted_random_selection` succeeds, every returned winner is a
key of the weight dict (any pseudo-random values whatsoever). -/
theorem wrs_mem (l : List (String × ℚ)) (k : Nat) (rand : Nat → ℚ)
    (ws : List String) (hok : weighted_random_selection l k rand = .ok ws)
    (a : String) (ha : a ∈ ws) : a ∈ l.map Prod.fst := by
  simp only [weighted_random_selection, pyChoices] at hok
  split at hok
  · exact absurd hok (by simp)
  · split at hok
    · exact absurd hok (by simp)
    · split at hok
      · exact absurd hok (by simp)
      · rename_i total hlast
        split at hok
        · exact absurd hok (by simp)
        · simp only [Except.ok.injEq] at hok
          subst hok
          simp only [List.mem_map, List.mem_range] at ha
          obtain ⟨i, hi, rfl⟩ := ha
          have hlne : l ≠ [] := by
            intro hc
            subst hc
            simp [accumulate] at hlast
          have hpos : 0 < (l.map Prod.fst).length := by
            simpa [List.length_map] using List.length_pos.mpr hlne
          have hb := bisectRight_le (accumulate 0 (l.map fun p => p.2 / sumVals l))
            (rand i * total) 0 ((l.map Prod.fst).length - 1) (by omega)
          have hidx : bisectRight (accumulate 0 (l.map fun p => p.2 / sumVals l))
              (rand i * total) 0 ((l.map Prod.fst).length - 1)
              < (l.map Prod.fst).length := by omega
          rw [List.getD_eq_getElem _ _ hidx]
          exact List.getElem_mem _

/-- Sum of the first `m` entries of a list whose only (possibly) non-zero
entry sits at index `j`. -/
theorem sum_take_single (ws : List ℚ) (j : Nat) (hj : j < ws.length)
    (hz : ∀ i (h : i < ws.length), i ≠ j → ws.get ⟨i, h⟩ = 0) (m : Nat) :
    (ws.take m).sum = if m ≤ j then 0 else ws.get ⟨j, hj⟩ := by
  induction ws generalizing j m with
  | nil => simp at hj
  | cons y ys ih =>
    cases m with
    | zero => simp
    | succ m =>
      cases j with
      | zero =>
        have hy : ∀ v ∈ ys.take m, v = (0 : ℚ) := by
          intro v hv
          have hv' : v ∈ ys := List.take_subset m ys hv
          obtain ⟨i, rfl⟩ := List.mem_iff_get.mp hv'
          have := hz (i.1 + 1) (by simpa using Nat.succ_lt_succ i.isLt) (by simp)
          simpa using this
        rw [List.take_succ_cons, List.sum_cons, List.sum_eq_zero hy]
        simp
      | succ j =>
        have h0 : y = 0 := by
          have := hz 0 (by simp) (by simp)
          simpa using this
        have hj' : j < ys.length := by simpa using hj
        have hz' : ∀ i (h : i < ys.length), i ≠ j → ys.get ⟨i, h⟩ = 0 := by
          intro i hi hne
          have := hz (i + 1) (by simpa using Nat.succ_lt_succ hi) (by omega)
          simpa using this
        rw [List.take_succ_cons, List.sum_cons, h0, zero_add, ih j hj' hz' m]
        simp [Nat.succ_le_succ_iff]

/-- When index `j` carries all the weight (every other entry is `0`) and every
pseudo-random draw lies in `[0, 1)`, every draw bisects to index `j`, so the
winner list is `k` copies of that address. -/
theorem wrs_sole_winner (l : List (String × ℚ)) (k : Nat) (rand : Nat → ℚ)
    (j : Nat) (hj : j < l.length)
    (hpos : 0 < (l.get ⟨j, hj⟩).2)
    (hz : ∀ i (h : i < l.length), i ≠ j → (l.get ⟨i, h⟩).2 = 0)
    (hr : ∀ i, 0 ≤ rand i ∧ rand i < 1) :
    weighted_random_selection l k rand = .ok (List.replicate k (l.get ⟨j, hj⟩).1) := by
  have hlpos : 0 < l.length := by omega
  have hne : l ≠ [] := List.ne_nil_of_length_pos hlpos
  have hjs : j < (l.map Prod.snd).length := by simpa using hj
  have hzs : ∀ i (h : i < (l.map Prod.snd).length), i ≠ j →
      (l.map Prod.snd).get ⟨i, h⟩ = 0 := by
    intro i hi hne'
    rw [List.get_map]
    exact hz i (by simpa using hi) hne'
  have hget : (l.map Prod.snd).get ⟨j, hjs⟩ = (l.get ⟨j, hj⟩).2 := by
    rw [List.get_map]
  have hTsum : sumVals l = (l.get ⟨j, hj⟩).2 := by
    have h1 := sum_take_single (l.map Prod.snd) j hjs hzs (l.map Prod.snd).length
    rw [List.take_length] at h1
    rw [sumVals, h1, if_neg (by omega), hget]
  have hT : sumVals l ≠ 0 := by rw [hTsum]; exact ne_of_gt hpos
  -- the cumulative probability entries
  have hcum : ∀ m (hm : m < l.length),
      (accumulate 0 (l.map (fun p => p.2 / sumVals l))).getD m 0
        = if m < j then 0 else 1 := by
    intro m hm
    have hmp : m < (l.map (fun p => p.2 / sumVals l)).length := by simpa using hm
    rw [accumulate_getD 0 _ m hmp, zero_add]
    have hmt : (l.map (fun p => p.2 / sumVals l)).take (m + 1)
        = ((l.map Prod.snd).take (m + 1)).map (fun y => y / sumVals l) := by
      rw [← List.map_take, ← List.map_take, List.map_map]
      rfl
    rw [hmt, sum_map_div, sum_take_single (l.map Prod.snd) j hjs hzs (m + 1), hget]
    by_cases hmj : m < j
    · rw [if_pos (by omega), if_pos hmj, zero_div]
    · rw [if_neg (by omega), if_neg hmj, ← hTsum, div_self hT]
  rw [wrs_ok l k rand hne hT]
  congr 1
  apply List.eq_replicate_iff.mpr
  constructor
  · simp
  · intro b hb
    simp only [List.mem_map, List.mem_range] at hb
    obtain ⟨i, hi, rfl⟩ := hb
    have hbis : bisectRight (accumulate 0 (l.map (fun p => p.2 / sumVals l)))
        (rand i) 0 (l.length - 1) = j := by
      apply bisectRight_eq
      · omega
      · omega
      · intro i' _ hi'
        rw [hcum i' (by omega)]
        rw [if_pos hi']
        exact (hr i).1
      · intro i' hji' hi'
        rw [hcum i' (by omega)]
        rw [if_neg (by omega)]
        exact (hr i).2
    rw [hbis]
    have hjf : j < (l.map Prod.fst).length := by simpa using hj
    rw [List.getD_eq_getElem _ _ hjf]
    simp [List.getElem_map]

/-! ## Helper lemmas about the loader loop's dict operations -/

/-- `addToken` never changes the token keys. -/
theorem addToken_keys (hs : Holdings) (t : String) (amt : ℚ) :
    (addToken hs t amt).map Prod.fst = hs.map Prod.fst := by
  induction hs with
  | nil => rfl
  | cons p ps ih =>
    simp only [addToken, List.map_cons] at ih ⊢
    rw [ih]
    by_cases h : (p.1 == t) = true
    · rw [if_pos h]
    · rw [if_neg h]

/-- `pyUpdate` never changes the address keys. -/
theorem pyUpdate_keys (b : Balances) (k : String) (v : Holdings) :
    (pyUpdate b k v).map Prod.fst = b.map Prod.fst := by
  induction b with
  | nil => rfl
  | cons p ps ih =>
    simp only [pyUpdate, List.map_cons] at ih ⊢
    rw [ih]
    by_cases h : (p.1 == k) = true
    · rw [if_pos h]
    · rw [if_neg h]

/-- Reading a token after `addToken`: the stored value gains `amt` exactly at
the updated token. -/
theorem pyLookup_addToken (hs : Holdings) (t : String) (amt : ℚ) (u : String) :
    pyLookup (addToken hs t amt) u
      = (pyLookup hs u).map (fun v => if u == t then v + amt else v) := by
  induction hs with
  | nil => rfl
  | cons p ps ih =>
    by_cases hpt : (p.1 == t) = true
    · by_cases hpu : (p.1 == u) = true
      · have hu : (u == t) = true := by rw [← eq_of_beq hpu]; exact hpt
        simp [addToken, pyLookup, hpt, hpu, hu]
      · simp only [addToken, pyLookup] at ih ⊢
        simp [hpt, hpu] at ih ⊢
        exact ih
    · by_cases hpu : (p.1 == u) = true
      · have hu : ¬(u == t) = true := by rw [← eq_of_beq hpu]; exact hpt
        simp [addToken, pyLookup, hpt, hpu, hu]
      · simp only [addToken, pyLookup] at ih ⊢
        simp [hpt, hpu] at ih ⊢
        exact ih

/-- Reading the updated key after `pyUpdate` yields the new value (when the
key was present). -/
theorem pyLookup_pyUpdate_self (b : Balances) (k : String) (v : Holdings)
    (h : pyContains b k = true) : pyLookup (pyUpdate b k v) k = some v := by
  induction b with
  | nil => simp [pyContains] at h
  | cons p ps ih =>
    simp only [pyContains, Bool.or_eq_true] at h
    by_cases hpk : (p.1 == k) = true
    · simp [pyUpdate, pyLookup, hpk]
    · rcases h with h | h
      · exact absurd h hpk
      · have hres := ih h
        simp only [pyUpdate, pyLookup] at hres ⊢
        simp [hpk] at hres ⊢
        exact hres

/-- Reading any other key after `pyUpdate` is unchanged. -/
theorem pyLookup_pyUpdate_ne (b : Balances) (k : String) (v : Holdings) (u : String)
    (h : u ≠ k) : pyLookup (pyUpdate b k v) u = pyLookup b u := by
  induction b with
  | nil => rfl
  | cons p ps ih =>
    by_cases hpk : (p.1 == k) = true
    · have hpu : ¬(p.1 == u) = true := by
        simp only [beq_iff_eq]
        rw [eq_of_beq hpk]
        exact fun hc => h hc.symm
      simp only [pyUpdate, pyLookup] at ih ⊢
      simp [hpk, hpu] at ih ⊢
      exact ih
    · by_cases hpu : (p.1 == u) = true
      · simp [pyUpdate, pyLookup, hpk, hpu]
      · simp only [pyUpdate, pyLookup] at ih ⊢
        simp [hpk, hpu] at ih ⊢
        exact ih

/-- Dict membership agrees with lookup success. -/
theorem pyContains_eq_isSome {α : Type} (b : List (String × α)) (u : String) :
    pyContains b u = (pyLookup b u).isSome := by
  induction b with
  | nil => rfl
  | cons p ps ih =>
    by_cases hpu : (p.1 == u) = true
    · simp [pyContains, pyLookup, hpu]
    · simp [pyContains, pyLookup, hpu, ih]

/-- Lookup in an appended dict: first list wins. -/
theorem pyLookup_append {α : Type} (b b' : List (String × α)) (u : String) :
    pyLookup (b ++ b') u = (pyLookup b u).or (pyLookup b' u) := by
  induction b with
  | nil => rfl
  | cons p ps ih =>
    by_cases hpu : (p.1 == u) = true
    · simp [pyLookup, hpu]
    · simp [pyLookup, hpu, ih]

/-! ## The claims -/


/-- C2: `weighted_random_selection` fails (raises) whenever the total of the
weight mapping's values is zero, or the mapping is empty and `k > 0`;
the raised exception is the `IndexError` (empty dict) or `ZeroDivisionError`
(non-empty dict with zero total) realisation of the spec's `InvalidInput`. -/
theorem C2_fails_on_zero_total_or_empty (l : List (String × ℚ)) (k : Nat)
    (rand : Nat → ℚ) (h : sumVals l = 0 ∨ (l = [] ∧ 0 < k)) :
    weighted_random_selection l k rand = .error .indexError ∨
    weighted_random_selection l k rand = .error .zeroDivisionError := by
  by_cases hl : l = []
  · subst hl
    left
    rfl
  · right
    have h0 : sumVals l = 0 := by
      rcases h with h | h
      · exact h
      · exact absurd h.1 hl
    simp only [weighted_random_selection]
    rw [if_pos ⟨h0, hl⟩]

theorem C2_witness :
    (sumVals ([] : List (String × ℚ)) = 0 ∨ (([] : List (String × ℚ)) = [] ∧ 0 < 1)) ∧
    (weighted_random_selection ([] : List (String × ℚ)) 1 rand0 = .error .indexError ∨
     weighted_random_selection ([] : List (String × ℚ)) 1 rand0 = .error .zeroDivisionError) :=
  ⟨Or.inl rfl, C2_fails_on_zero_total_or_empty [] 1 rand0 (Or.inl rfl)⟩

/-- C3: for every non-empty weight mapping with positive total, every `k` and
every pseudo-random state, each returned winner is a key of the mapping. -/
theorem C3_winners_are_keys (l : List (String × ℚ)) (k : Nat) (rand : Nat → ℚ)
    (ws : List String) (a : String)
    (hne : l ≠ []) (hpos : 0 < sumVals l)
    (hok : weighted_random_selection l k rand = .ok ws) (ha : a ∈ ws) :
    a ∈ l.map Prod.fst :=
  wrs_mem l k rand ws hok a ha

theorem C3_witness :
    (([("0xA", (3 : ℚ)), ("0xB", 1)] : List (String × ℚ)) ≠ [] ∧
     0 < sumVals [("0xA", (3 : ℚ)), ("0xB", 1)] ∧
     weighted_random_selection [("0xA", (3 : ℚ)), ("0xB", 1)] 2 rand0 = .ok ["0xA", "0xA"] ∧
     "0xA" ∈ (["0xA", "0xA"] : List String)) ∧
    "0xA" ∈ ([("0xA", (3 : ℚ)), ("0xB", 1)] : List (String × ℚ)).map Prod.fst :=
  ⟨⟨by simp, by norm_num [sumVals],
    by norm_num [weighted_random_selection, pyChoices, sumVals, accumulate,
      bisectRight, bisectGo, rand0, List.range_succ], by simp⟩,
   C3_winners_are_keys [("0xA", (3 : ℚ)), ("0xB", 1)] 2 rand0 ["0xA", "0xA"] "0xA"
     (by simp) (by norm_num [sumVals])
     (by norm_num [weighted_random_selection, pyChoices, sumVals, accumulate,
        bisectRight, bisectGo, rand0, List.range_succ]) (by simp)⟩

/-- C4: for every non-empty weight mapping with positive total and every
`k ≥ 0`, the winner list has length exactly `k`; `k = 0` gives `[]`. -/
theorem C4_winner_list_length (l : List (String × ℚ)) (k : Nat) (rand : Nat → ℚ)
    (hne : l ≠ []) (hpos : 0 < sumVals l) :
    (weighted_random_selection l k rand).map List.length = .ok k ∧
    weighted_random_selection l 0 rand = .ok [] := by
  constructor
  · rw [wrs_ok l k rand hne (ne_of_gt hpos)]
    simp [Except.map]
  · rw [wrs_ok l 0 rand hne (ne_of_gt hpos)]
    simp

theorem C4_witness :
    (([("0xA", (3 : ℚ)), ("0xB", 1)] : List (String × ℚ)) ≠ [] ∧
     0 < sumVals [("0xA", (3 : ℚ)), ("0xB", 1)]) ∧
    ((weighted_random_selection [("0xA", (3 : ℚ)), ("0xB", 1)] 2 rand0).map List.length
        = .ok 2 ∧
     weighted_random_selection [("0xA", (3 : ℚ)), ("0xB", 1)] 0 rand0 = .ok []) :=
  ⟨⟨by simp, by norm_num [sumVals]⟩,
   C4_winner_list_length [("0xA", (3 : ℚ)), ("0xB", 1)] 2 rand0 (by simp)
     (by norm_num [sumVals])⟩

/-- C5: if one entry holds all the nonzero weight (all others zero) then for
any `k` and any pseudo-random state (draws in `[0,1)`), the winner list is
`k` copies of that entry's address. -/
theorem C5_sole_nonzero_weight_always_wins (l : List (String × ℚ)) (k : Nat)
    (rand : Nat → ℚ) (j : Nat) (hj : j < l.length)
    (hpos : 0 < (l.get ⟨j, hj⟩).2)
    (hz : ∀ i (h : i < l.length), i ≠ j → (l.get ⟨i, h⟩).2 = 0)
    (hr : ∀ i, 0 ≤ rand i ∧ rand i < 1) :
    weighted_random_selection l k rand = .ok (List.replicate k (l.get ⟨j, hj⟩).1) :=
  wrs_sole_winner l k rand j hj hpos hz hr

theorem C5_witness :
    (0 < (([("0xZ", (0 : ℚ)), ("0xW", 2)] : List (String × ℚ)).get ⟨1, by decide⟩).2) ∧
    weighted_random_selection [("0xZ", (0 : ℚ)), ("0xW", 2)] 3 rand0
      = .ok (List.replicate 3
          (([("0xZ", (0 : ℚ)), ("0xW", 2)] : List (String × ℚ)).get ⟨1, by decide⟩).1) :=
  ⟨by decide,
   C5_sole_nonzero_weight_always_wins [("0xZ", (0 : ℚ)), ("0xW", 2)] 3 rand0 1
     (by decide) (by decide) (by decide) (fun i => by norm_num [rand0])⟩



/-- In a dict (distinct keys), two entries with the same key carry the same
value. -/
theorem pyNodupKeys_eq {α : Type} (l : List (String × α)) (hnd : (l.map Prod.fst).Nodup)
    (a : String) (x y : α) (hx : (a, x) ∈ l) (hy : (a, y) ∈ l) : x = y := by
  induction l with
  | nil => simp at hx
  | cons p ps ih =>
    simp only [List.map_cons, List.nodup_cons] at hnd
    rcases List.mem_cons.mp hx with h1 | h1 <;> rcases List.mem_cons.mp hy with h2 | h2
    · rw [← h2] at h1
      exact (Prod.ext_iff.mp h1).2
    · exfalso
      apply hnd.1
      rw [← h1]
      exact List.mem_map.mpr ⟨(a, y), h2, rfl⟩
    · exfalso
      apply hnd.1
      rw [← h2]
      exact List.mem_map.mpr ⟨(a, x), h1, rfl⟩
    · exact ih hnd.2 h1 h2

/-- C1: `calculate_weights` maps each address to the sum of its per-token
balances, keeps an address iff that sum is `> 0`, and sends the empty
mapping to the empty mapping. -/
theorem C1_weights_spec (balances : Balances) (a : String) (w : ℚ) :
    calculate_weights ([] : Balances) = [] ∧
    ((a, w) ∈ calculate_weights balances ↔
      ∃ hs, (a, hs) ∈ balances ∧ w = sumVals hs ∧ 0 < sumVals hs) ∧
    (a ∈ (calculate_weights balances).map Prod.fst ↔
      ∃ hs, (a, hs) ∈ balances ∧ 0 < sumVals hs) := by
  refine ⟨rfl, ?_, ?_⟩
  · simp only [calculate_weights, List.mem_filterMap]
    constructor
    · rintro ⟨⟨pa, ph⟩, hp, hf⟩
      split at hf
      · rename_i hpos
        simp only [Option.some.injEq, Prod.mk.injEq] at hf
        obtain ⟨rfl, rfl⟩ := hf
        exact ⟨ph, hp, rfl, hpos⟩
      · cases hf
    · rintro ⟨hs, hmem, rfl, hpos⟩
      exact ⟨(a, hs), hmem, by simp [if_pos hpos]⟩
  · simp only [List.mem_map, calculate_weights, List.mem_filterMap]
    constructor
    · rintro ⟨⟨a', w'⟩, ⟨⟨pa, ph⟩, hp, hf⟩, rfl⟩
      split at hf
      · rename_i hpos
        simp only [Option.some.injEq, Prod.mk.injEq] at hf
        obtain ⟨rfl, rfl⟩ := hf
        exact ⟨ph, hp, hpos⟩
      · cases hf
    · rintro ⟨hs, hmem, hpos⟩
      exact ⟨(a, sumVals hs), ⟨(a, hs), hmem, by simp [if_pos hpos]⟩, rfl⟩

/-- C6: the sum of the values of `calculate_weights balances` equals the sum
of the per-address balance totals over the addresses with positive total. -/
theorem C6_total_weight_conservation (balances : Balances) :
    sumVals (calculate_weights balances)
      = ((balances.filter (fun p => decide (0 < sumVals p.2))).map
          (fun p => sumVals p.2)).sum := by
  induction balances with
  | nil => rfl
  | cons p ps ih =>
    by_cases h : 0 < sumVals p.2
    · rw [show calculate_weights (p :: ps) = (p.1, sumVals p.2) :: calculate_weights ps
          from by simp [calculate_weights, List.filterMap_cons, if_pos h]]
      rw [List.filter_cons_of_pos (by simpa using h)]
      rw [List.map_cons, List.sum_cons, ← ih]
      simp [sumVals]
    · rw [show calculate_weights (p :: ps) = calculate_weights ps
          from by simp [calculate_weights, List.filterMap_cons, if_neg h]]
      rw [List.filter_cons_of_neg (by simpa using h), ih]

/-- C7: an address whose holdings sum to zero never appears in the winner
list of the pipeline `calculate_weights` then `weighted_random_selection`
(any `k`, any pseudo-random state). -/
theorem C7_zero_weight_never_wins (balances : Balances) (k : Nat) (rand : Nat → ℚ)
    (a : String) (hs : Holdings) (ws : List String)
    (hnd : (balances.map Prod.fst).Nodup)
    (hmem : (a, hs) ∈ balances) (hzero : sumVals hs = 0)
    (hok : weighted_random_selection (calculate_weights balances) k rand = .ok ws) :
    a ∉ ws := by
  intro ha
  have hkey := wrs_mem _ k rand ws hok a ha
  simp only [List.mem_map, calculate_weights, List.mem_filterMap] at hkey
  obtain ⟨⟨a', w'⟩, ⟨⟨pa, ph⟩, hp, hf⟩, rfl⟩ := hkey
  split at hf
  · rename_i hpos
    simp only [Option.some.injEq, Prod.mk.injEq] at hf
    obtain ⟨rfl, rfl⟩ := hf
    have heq : hs = ph := pyNodupKeys_eq balances hnd pa hs ph hmem hp
    rw [← heq] at hpos
    rw [hzero] at hpos
    exact lt_irrefl 0 hpos
  · cases hf



theorem C7_witness :
    ((([("0xA", [("AR", (0 : ℚ))]), ("0xB", [("AR", 2)])] : Balances).map Prod.fst).Nodup ∧
     ("0xA", [("AR", (0 : ℚ))]) ∈ ([("0xA", [("AR", (0 : ℚ))]), ("0xB", [("AR", 2)])] : Balances) ∧
     sumVals [("AR", (0 : ℚ))] = 0 ∧
     weighted_random_selection
       (calculate_weights [("0xA", [("AR", (0 : ℚ))]), ("0xB", [("AR", 2)])]) 1 rand0
         = .ok ["0xB"]) ∧
    "0xA" ∉ (["0xB"] : List String) :=
  ⟨⟨by decide, by decide, by norm_num [sumVals],
    by norm_num [calculate_weights, List.filterMap_cons, sumVals,
      weighted_random_selection, pyChoices, accumulate, bisectRight, bisectGo,
      rand0, List.range_succ]⟩,
   C7_zero_weight_never_wins [("0xA", [("AR", (0 : ℚ))]), ("0xB", [("AR", 2)])] 1 rand0
     "0xA" [("AR", (0 : ℚ))] ["0xB"] (by decide) (by decide) (by norm_num [sumVals])
     (by norm_num [calculate_weights, List.filterMap_cons, sumVals,
        weighted_random_selection, pyChoices, accumulate, bisectRight, bisectGo,
        rand0, List.range_succ])⟩

/-- A successful lookup returns an entry of the dict. -/
theorem pyLookup_mem {α : Type} (b : List (String × α)) (u : String) (v : α)
    (h : pyLookup b u = some v) : (u, v) ∈ b := by
  induction b with
  | nil => cases h
  | cons p ps ih =>
    by_cases hpu : (p.1 == u) = true
    · simp only [pyLookup, hpu, if_true] at h
      cases h
      rw [← eq_of_beq hpu]
      exact List.mem_cons_self _ _
    · simp only [pyLookup, hpu, Bool.false_eq_true, if_false] at h
      exact List.mem_cons_of_mem _ (ih h)

/-- Membership in an appended dict. -/
theorem pyContains_append {α : Type} (b b' : List (String × α)) (u : String) :
    pyContains (b ++ b') u = (pyContains b u || pyContains b' u) := by
  induction b with
  | nil => rfl
  | cons p ps ih => simp [pyContains, ih, Bool.or_assoc]

/-- Dict membership is membership among the keys. -/
theorem pyContains_iff_mem_keys {α : Type} (l : List (String × α)) (u : String) :
    pyContains l u = true ↔ u ∈ l.map Prod.fst := by
  induction l with
  | nil => simp [pyContains]
  | cons p ps ih =>
    simp only [pyContains, Bool.or_eq_true, List.map_cons, List.mem_cons, ih, beq_iff_eq]
    constructor
    · rintro (h | h)
      · exact Or.inl h.symm
      · exact Or.inr h
    · rintro (h | h)
      · exact Or.inl h.symm
      · exact Or.inr h

/-- The default holdings store `0` for each of the three tokens. -/
theorem pyLookup_defaultHoldings (t : String)
    (ht : t = "AR" ∨ t = "AISTR" ∨ t = "ALCH") :
    pyLookup defaultHoldings t = some 0 := by
  rcases ht with rfl | rfl | rfl <;> rfl

/-- Registering a fresh address with all-zero default holdings changes no
reported amount. -/
theorem amountOf_append_default (b : Balances) (ra addr t : String) :
    amountOf (b ++ [(ra, defaultHoldings)]) addr t = amountOf b addr t := by
  unfold amountOf
  rw [pyLookup_append]
  cases hb : pyLookup b addr with
  | some hs => rfl
  | none =>
    simp only [Option.or]
    by_cases hra : (ra == addr) = true
    · simp [pyLookup, hra]
    · simp [pyLookup, hra]

/-- The guarded accumulation keeps every address's token keys equal to the
three-token default. -/
theorem processRowUpd_holdings_keys (b1 : Balances) (rk rt : String) (amt : ℚ)
    (hb1 : ∀ p ∈ b1, p.2.map Prod.fst = ["AR", "AISTR", "ALCH"]) :
    ∀ p ∈ processRowUpd b1 rk rt amt, p.2.map Prod.fst = ["AR", "AISTR", "ALCH"] := by
  intro p hp
  simp only [processRowUpd] at hp
  split at hp
  · rcases List.mem_map.mp hp with ⟨q, hq, rfl⟩
    by_cases hqk : (q.1 == rk) = true
    · simp only [if_pos hqk]
      rw [addToken_keys]
      cases hlook : pyLookup b1 rk with
      | some hs => simpa using hb1 (rk, hs) (pyLookup_mem _ _ _ hlook)
      | none => rfl
    · simp only [if_neg hqk]
      exact hb1 q hq
  · exact hb1 p hp

/-- One loader-loop iteration keeps every address's token keys equal to the
three-token default. -/
theorem processRow_holdings_keys (b : Balances) (r : String × String × ℚ)
    (hb : ∀ p ∈ b, p.2.map Prod.fst = ["AR", "AISTR", "ALCH"]) :
    ∀ p ∈ processRow b r, p.2.map Prod.fst = ["AR", "AISTR", "ALCH"] := by
  simp only [processRow]
  apply processRowUpd_holdings_keys
  split
  · exact hb
  · intro p hp
    rcases List.mem_append.mp hp with h | h
    · exact hb p h
    · rcases List.mem_singleton.mp h with rfl
      rfl

/-- The guarded accumulation never changes the address keys. -/
theorem processRowUpd_keys (b1 : Balances) (rk rt : String) (amt : ℚ) :
    (processRowUpd b1 rk rt amt).map Prod.fst = b1.map Prod.fst := by
  simp only [processRowUpd]
  split
  · rw [pyUpdate_keys]
  · rfl

/-- One loader-loop iteration appends the row's address to the keys exactly
when it was absent. -/
theorem processRow_keys (b : Balances) (r : String × String × ℚ) :
    (processRow b r).map Prod.fst
      = if pyContains b r.1 then b.map Prod.fst else b.map Prod.fst ++ [r.1] := by
  simp only [processRow, processRowUpd_keys]
  split
  · rfl
  · simp



/-- Amount accounting for the guarded accumulation: only the row's own
`(address, token)` cell gains the row's balance, and only when the token is
one of the three tracked ones. -/
theorem amountOf_processRowUpd (b1 : Balances) (rk rt : String) (amt : ℚ)
    (addr t : String)
    (hb1 : ∀ p ∈ b1, p.2.map Prod.fst = ["AR", "AISTR", "ALCH"])
    (hcont : pyContains b1 rk = true)
    (ht : t = "AR" ∨ t = "AISTR" ∨ t = "ALCH") :
    amountOf (processRowUpd b1 rk rt amt) addr t
      = amountOf b1 addr t + (if rk = addr ∧ rt = t then amt else 0) := by
  obtain ⟨hs, hhs⟩ : ∃ hs, pyLookup b1 rk = some hs := by
    rw [pyContains_eq_isSome] at hcont
    exact Option.isSome_iff_exists.mp hcont
  have hcont' : pyContains b1 rk = true := by
    rw [pyContains_eq_isSome, hhs]
    rfl
  have hkeys : hs.map Prod.fst = ["AR", "AISTR", "ALCH"] :=
    hb1 (rk, hs) (pyLookup_mem _ _ _ hhs)
  simp only [processRowUpd, hhs, Option.getD_some]
  by_cases hc : pyContains hs rt = true
  · rw [if_pos hc]
    by_cases haddr : addr = rk
    · subst haddr
      unfold amountOf
      rw [pyLookup_pyUpdate_self _ _ _ hcont', Option.getD_some, hhs, Option.getD_some]
      rw [pyLookup_addToken]
      have hts : pyContains hs t = true := by
        rw [pyContains_iff_mem_keys, hkeys]
        rcases ht with rfl | rfl | rfl <;> simp
      obtain ⟨v, hv⟩ : ∃ v, pyLookup hs t = some v := by
        rw [pyContains_eq_isSome] at hts
        exact Option.isSome_iff_exists.mp hts
      rw [hv]
      simp only [Option.map_some', Option.getD_some]
      by_cases hrt : rt = t
      · subst hrt
        simp
      · rw [if_neg (by simp only [beq_iff_eq]; exact fun h => hrt h.symm),
          if_neg (fun hand => hrt hand.2)]
        exact (add_zero v).symm
    · unfold amountOf
      rw [pyLookup_pyUpdate_ne _ _ _ _ haddr]
      rw [if_neg (fun hand => haddr hand.1.symm)]
      exact (add_zero _).symm
  · rw [if_neg hc]
    have hrtn : rt ∉ (["AR", "AISTR", "ALCH"] : List String) := by
      rw [← hkeys]
      intro hmem
      exact hc ((pyContains_iff_mem_keys hs rt).mpr hmem)
    have hno : ¬(rk = addr ∧ rt = t) := by
      rintro ⟨_, rfl⟩
      exact hrtn (by rcases ht with rfl | rfl | rfl <;> simp)
    rw [if_neg hno, add_zero]

/-- Amount accounting for one full loader-loop iteration. -/
theorem amountOf_processRow (b : Balances) (r : String × String × ℚ) (addr t : String)
    (hb : ∀ p ∈ b, p.2.map Prod.fst = ["AR", "AISTR", "ALCH"])
    (ht : t = "AR" ∨ t = "AISTR" ∨ t = "ALCH") :
    amountOf (processRow b r) addr t
      = amountOf b addr t + (if r.1 = addr ∧ r.2.1 = t then r.2.2 else 0) := by
  simp only [processRow]
  by_cases hcb : pyContains b r.1 = true
  · rw [if_pos hcb]
    exact amountOf_processRowUpd b r.1 r.2.1 r.2.2 addr t hb hcb ht
  · rw [if_neg hcb]
    have hb1 : ∀ p ∈ b ++ [(r.1, defaultHoldings)],
        p.2.map Prod.fst = ["AR", "AISTR", "ALCH"] := by
      intro p hp
      rcases List.mem_append.mp hp with h | h
      · exact hb p h
      · rcases List.mem_singleton.mp h with rfl
        rfl
    have hcont : pyContains (b ++ [(r.1, defaultHoldings)]) r.1 = true := by
      rw [pyContains_append]
      simp [pyContains]
    rw [amountOf_processRowUpd _ r.1 r.2.1 r.2.2 addr t hb1 hcont ht,
      amountOf_append_default]

/-- Unfolding `rowSum` over the first row. -/
theorem rowSum_cons (r : String × String × ℚ) (rows : List (String × String × ℚ))
    (addr t : String) :
    rowSum (r :: rows) addr t
      = (if r.1 = addr ∧ r.2.1 = t then r.2.2 else 0) + rowSum rows addr t := by
  by_cases h : r.1 = addr ∧ r.2.1 = t
  · have hb : (r.1 == addr && r.2.1 == t) = true := by simp [h.1, h.2]
    simp [rowSum, List.filter_cons, hb, h]
  · have hb : ¬(r.1 == addr && r.2.1 == t) = true := by
      simp only [Bool.and_eq_true, beq_iff_eq]
      exact h
    simp [rowSum, List.filter_cons, hb, h]

/-- Amount accounting for the whole loader loop. -/
theorem amountOf_foldl (rows : List (String × String × ℚ)) : ∀ (b : Balances),
    (∀ p ∈ b, p.2.map Prod.fst = ["AR", "AISTR", "ALCH"]) → ∀ addr t,
    (t = "AR" ∨ t = "AISTR" ∨ t = "ALCH") →
    amountOf (rows.foldl processRow b) addr t = amountOf b addr t + rowSum rows addr t := by
  induction rows with
  | nil =>
    intro b hb addr t ht
    simp [rowSum]
  | cons r rows ih =>
    intro b hb addr t ht
    rw [List.foldl_cons,
      ih (processRow b r) (processRow_holdings_keys b r hb) addr t ht,
      amountOf_processRow b r addr t hb ht, rowSum_cons]
    ring

/-- The loader loop registers exactly the addresses of the processed rows
(on top of whatever the accumulator already held). -/
theorem keys_foldl (rows : List (String × String × ℚ)) : ∀ (b : Balances) (addr : String),
    (addr ∈ (rows.foldl processRow b).map Prod.fst
      ↔ addr ∈ b.map Prod.fst ∨ addr ∈ rows.map (fun r => r.1)) := by
  induction rows with
  | nil => simp
  | cons r rows ih =>
    intro b addr
    rw [List.foldl_cons, ih, processRow_keys]
    by_cases hcb : pyContains b r.1 = true
    · rw [if_pos hcb]
      simp only [List.map_cons, List.mem_cons]
      constructor
      · rintro (h | h)
        · exact Or.inl h
        · exact Or.inr (Or.inr h)
      · rintro (h | h | h)
        · exact Or.inl h
        · subst h
          exact Or.inl ((pyContains_iff_mem_keys b r.1).mp hcb)
        · exact Or.inr h
    · rw [if_neg hcb]
      simp only [List.mem_append, List.mem_singleton, List.map_cons, List.mem_cons]
      tauto



/-- The whole loader loop keeps every address's token keys equal to the
three-token default. -/
theorem holdings_keys_foldl (rows : List (String × String × ℚ)) : ∀ (b : Balances),
    (∀ p ∈ b, p.2.map Prod.fst = ["AR", "AISTR", "ALCH"]) →
    ∀ p ∈ rows.foldl processRow b, p.2.map Prod.fst = ["AR", "AISTR", "ALCH"] := by
  induction rows with
  | nil => intro b hb; exact hb
  | cons r rows ih => intro b hb; exact ih _ (processRow_holdings_keys b r hb)

/-- The sampler never raises the missing-input `ValueError`. -/
theorem wrs_no_missing (l : List (String × ℚ)) (k : Nat) (rand : Nat → ℚ) :
    weighted_random_selection l k rand ≠ .error .missingInputValueError := by
  simp only [weighted_random_selection, pyChoices]
  split
  · simp
  · split
    · simp
    · split
      · simp
      · split
        · simp
        · simp

/-- Steps 2-4 of `main` (weights, sampling, result pairing) never raise the
missing-input `ValueError`. -/
theorem steps234_no_missing (balances : Balances) (k : Nat) (rand : Nat → ℚ) :
    (match weighted_random_selection (calculate_weights balances) k rand with
      | .error e => .error e
      | .ok winners =>
        .ok (winners.map (fun w => (w, (pyLookup balances w).getD defaultHoldings))))
      ≠ (.error .missingInputValueError : Except PyErr (List (String × Holdings))) := by
  cases hw : weighted_random_selection (calculate_weights balances) k rand with
  | error e =>
    intro h
    simp only [Except.error.injEq] at h
    exact wrs_no_missing (calculate_weights balances) k rand (by rw [hw, h])
  | ok ws => simp

/-- C9, counterexample: a row whose token is unknown is not silently
ignored - it registers its address with all-zero default holdings, so the
returned mapping differs from the one obtained by dropping the row. -/
theorem C9_counterexample :
    processRows [("0xA", "FOO", (5 : ℚ))] = [("0xA", defaultHoldings)] ∧
    processRows ([] : List (String × String × ℚ)) = [] ∧
    processRows [("0xA", "FOO", (5 : ℚ))] ≠ processRows ([] : List (String × String × ℚ)) ∧
    "0xA" ∈ (processRows [("0xA", "FOO", (5 : ℚ))]).map Prod.fst :=
  ⟨by decide, rfl, by decide, by decide⟩

/-- C9 (amended): the loader loop accumulates amounts only for the three
tokens AR, AISTR, ALCH (each tracked amount equals the sum of the matching
rows' balances, so unknown-token rows contribute no amounts), every address
in the result maps to exactly those three keys, and the result's addresses
are exactly the addresses of the processed rows - including those of
unknown-token rows, which are registered with all-zero holdings. -/
theorem C9_amended_loader_rows (rows : List (String × String × ℚ)) (addr t : String)
    (ht : t = "AR" ∨ t = "AISTR" ∨ t = "ALCH") :
    (processRows rows).all (fun p => p.2.map Prod.fst == ["AR", "AISTR", "ALCH"]) = true ∧
    amountOf (processRows rows) addr t = rowSum rows addr t ∧
    (addr ∈ (processRows rows).map Prod.fst ↔ addr ∈ rows.map (fun r => r.1)) := by
  refine ⟨?_, ?_, ?_⟩
  · rw [List.all_eq_true]
    intro p hp
    exact beq_iff_eq.mpr (holdings_keys_foldl rows [] (by simp) p hp)
  · have hfold := amountOf_foldl rows [] (by simp) addr t ht
    have h0 : amountOf [] addr t = 0 := by
      unfold amountOf
      rw [show pyLookup ([] : Balances) addr = none from rfl]
      rw [show (none : Option Holdings).getD defaultHoldings = defaultHoldings from rfl]
      rw [pyLookup_defaultHoldings t ht]
      rfl
    rw [processRows, hfold, h0, zero_add]
  · simpa using keys_foldl rows [] addr

/-- C9 witness. -/
theorem C9_witness :
    ("AR" = "AR" ∨ "AR" = "AISTR" ∨ "AR" = "ALCH") ∧
    ((processRows [("0xA", "FOO", (5 : ℚ)), ("0xB", "AR", 3)]).all
        (fun p => p.2.map Prod.fst == ["AR", "AISTR", "ALCH"]) = true ∧
     amountOf (processRows [("0xA", "FOO", (5 : ℚ)), ("0xB", "AR", 3)]) "0xB" "AR"
        = rowSum [("0xA", "FOO", (5 : ℚ)), ("0xB", "AR", 3)] "0xB" "AR" ∧
     ("0xB" ∈ (processRows [("0xA", "FOO", (5 : ℚ)), ("0xB", "AR", 3)]).map Prod.fst ↔
      "0xB" ∈ ([("0xA", "FOO", (5 : ℚ)), ("0xB", "AR", 3)]).map (fun r => r.1))) :=
  ⟨Or.inl rfl,
   C9_amended_loader_rows [("0xA", "FOO", (5 : ℚ)), ("0xB", "AR", 3)] "0xB" "AR" (Or.inl rfl)⟩

/-- C8, counterexample: with no file path, `api_key = "key"` and
`block_number = 0`, the api_key/block_number pair is fully provided and yet
`main` raises the missing-input `ValueError`, because `0` is falsy in
`if api_key and block_number:`. -/
theorem C8_counterexample :
    main loadFileEmpty duneFetchZ none 1 (some 0) (some "key") rand0
      = .error .missingInputValueError ∧
    (some "key").isSome = true ∧ (some (0 : Int)).isSome = true :=
  ⟨rfl, rfl, rfl⟩

/-- C8 (amended): provided the balance sources never themselves raise the
missing-input `ValueError`, `main` raises it iff the file path is not truthy
(absent or empty) and the api_key/block_number pair is not both-truthy
(api_key non-empty and block_number non-zero). -/
theorem C8_missing_input_iff (loadFile : String → Except PyErr Balances)
    (duneFetch : Int → String → Except PyErr Balances)
    (file_path : Option String) (num_winners : Nat) (block_number : Option Int)
    (api_key : Option String) (rand : Nat → ℚ)
    (hL : ∀ s, loadFile s ≠ .error .missingInputValueError)
    (hD : ∀ b a, duneFetch b a ≠ .error .missingInputValueError) :
    main loadFile duneFetch file_path num_winners block_number api_key rand
        = .error .missingInputValueError
      ↔ (pyTruthyStr file_path = false ∧
         (pyTruthyStr api_key && pyTruthyInt block_number) = false) := by
  simp only [main]
  by_cases hd : (pyTruthyStr api_key && pyTruthyInt block_number) = true
  · rw [if_pos hd]
    apply iff_of_false
    · cases hdf : duneFetch (block_number.getD 0) (api_key.getD "") with
      | error e =>
        intro h
        apply hD (block_number.getD 0) (api_key.getD "")
        rw [hdf]
        simp only [Except.error.injEq] at h
        rw [h]
      | ok balances => exact steps234_no_missing balances num_winners rand
    · rintro ⟨_, hfalse⟩
      rw [hd] at hfalse
      cases hfalse
  · rw [if_neg hd]
    by_cases hf : pyTruthyStr file_path = true
    · rw [if_pos hf]
      apply iff_of_false
      · cases hlf : loadFile (file_path.getD "") with
        | error e =>
          intro h
          apply hL (file_path.getD "")
          rw [hlf]
          simp only [Except.error.injEq] at h
          rw [h]
        | ok balances => exact steps234_no_missing balances num_winners rand
      · rintro ⟨hfalse, _⟩
        rw [hf] at hfalse
        cases hfalse
    · rw [if_neg hf]
      apply iff_of_true
      · rfl
      · exact ⟨Bool.eq_false_iff.mpr hf, Bool.eq_false_iff.mpr hd⟩

/-- C8 witness. -/
theorem C8_witness :
    main loadFileEmpty duneFetchZ (some "f.csv") 5 none none rand0
        = .error .missingInputValueError
      ↔ (pyTruthyStr (some "f.csv") = false ∧
         (pyTruthyStr none && pyTruthyInt none) = false) :=
  C8_missing_input_iff loadFileEmpty duneFetchZ (some "f.csv") 5 none none rand0
    (fun s h => Except.noConfusion h) (fun b a h => Except.noConfusion h)

/-- C10, counterexample: with a file path and a fully provided (but falsy,
`block_number = 0`) api_key/block_number pair, `main`'s result is the file
loader's - the file is read and the Dune source ignored, and exchanging the
file loader changes the result. -/
theorem C10_counterexample :
    main loadFileA duneFetchZ (some "balances.csv") 1 (some 0) (some "key") rand0
      = .error (.other "fileA") ∧
    main loadFileB duneFetchZ (some "balances.csv") 1 (some 0) (some "key") rand0
      = .error (.other "fileB") ∧
    main loadFileA duneFetchZ (some "balances.csv") 1 (some 0) (some "key") rand0
      ≠ main loadFileB duneFetchZ (some "balances.csv") 1 (some 0) (some "key") rand0 ∧
    (some "key").isSome = true ∧ (some (0 : Int)).isSome = true ∧
    (some "balances.csv").isSome = true := by
  refine ⟨rfl, rfl, ?_, rfl, rfl, rfl⟩
  intro hEq
  rw [show main loadFileA duneFetchZ (some "balances.csv") 1 (some 0) (some "key") rand0
        = .error (.other "fileA") from rfl,
     show main loadFileB duneFetchZ (some "balances.csv") 1 (some 0) (some "key") rand0
        = .error (.other "fileB") from rfl] at hEq
  simp at hEq

/-- C10 (amended): when `api_key` is a non-empty string and `block_number` a
non-zero integer, `main` uses the Dune source and its result is independent
of both the file loader and the file path. -/
theorem C10_dune_branch_ignores_file (loadFile loadFile' : String → Except PyErr Balances)
    (duneFetch : Int → String → Except PyErr Balances)
    (file_path file_path' : Option String) (num_winners : Nat)
    (block_number : Option Int) (api_key : Option String) (rand : Nat → ℚ)
    (hA : pyTruthyStr api_key = true) (hB : pyTruthyInt block_number = true) :
    main loadFile duneFetch file_path num_winners block_number api_key rand
      = main loadFile' duneFetch file_path' num_winners block_number api_key rand := by
  simp only [main, hA, hB]
  simp

/-- C10 witness. -/
theorem C10_witness :
    (pyTruthyStr (some "key") = true ∧ pyTruthyInt (some 7) = true) ∧
    main loadFileA duneFetchZ (some "x.csv") 1 (some 7) (some "key") rand0
      = main loadFileB duneFetchZ none 1 (some 7) (some "key") rand0 :=
  ⟨⟨rfl, rfl⟩,
   C10_dune_branch_ignores_file loadFileA loadFileB duneFetchZ (some "x.csv") none 1
     (some 7) (some "key") rand0 rfl rfl⟩

end Raffle
